import Mathlib

/-!
Verification development for the flextime repository: a two-stage compiler
from human-editable time-format templates (with optional bracketed segments
and two escaping mechanisms) to Go reference-date format strings.

Go strings are modelled as `List Char`; Go runtime panics (out-of-range
slice expressions, `panic(...)` calls) are modelled by the `GoPanic` error
type of an `Except`; fallible Go functions returning `error` values keep
those as ordinary data.  Index-based Go `for` loops are modelled with an
explicit structural fuel argument; every wrapper passes enough fuel for the
loop to reach its natural exit, and where fuel exhaustion is distinguishable
from a normal exit it is reported as `GoPanic.outOfFuel`.
-/

/-- A Go runtime panic, as observable behaviour of the modelled code. -/
inductive GoPanic where
  /-- `panic: runtime error: slice bounds out of range [lo:hi]` on a string of
  the given length. -/
  | sliceOOR (lo hi len : Nat)
  /-- The `panic(fmt.Sprintf("unknown: %s", tt))` in `timeFormatToken.toGoFmt`. -/
  | unknownToken (t : List Char)
  /-- The `panic(fmt.Sprintf("incorrect implementation: ...", ...))` in
  `recursiveDecode` (CHARS case). -/
  | decodePanic (name : String) (value : List Char)
  /-- Non-termination of a recursion, observable in Go as unbounded recursion
  (stack overflow): the modelling fuel ran out. -/
  | outOfFuel
deriving DecidableEq, Repr

/-- Go slice expression `s[lo:hi]`: panics unless `lo ≤ hi ≤ len(s)`. -/
def goSlice (s : List Char) (lo hi : Nat) : Except GoPanic (List Char) :=
  if lo ≤ hi ∧ hi ≤ s.length then .ok ((s.drop lo).take (hi - lo))
  else .error (.sliceOOR lo hi s.length)

/-- Go slice expression `s[lo:]`: panics unless `lo ≤ len(s)`. -/
def goSliceFrom (s : List Char) (lo : Nat) : Except GoPanic (List Char) :=
  goSlice s lo s.length

/-- Go `strings.HasSuffix(s, suf)`: `len(s) >= len(suf) && s[len(s)-len(suf):] == suf`. -/
def goHasSuffix (s suf : List Char) : Bool :=
  suf.length ≤ s.length && s.drop (s.length - suf.length) == suf

/-- Go `strings.HasPrefix(s, pre)`. -/
def goHasPrefix (s pre : List Char) : Bool :=
  pre.isPrefixOf s

/-- Loop body of `getUntilClosingSingleQuote` (file `src/unnamed/part_000`):
scan for a `'` at index `i`; it closes the block when it is at index 0, or not
immediately preceded by `\`, or `strings.HasSuffix(input[:i+1], "\\\\'")`.
`fuel` only mirrors the remaining iteration count `len(input) - i`. -/
def getUntilClosingSingleQuoteLoop (fuel : Nat) (input : List Char) (i : Nat) : List Char :=
  match fuel with
  | 0 => input
  | fuel + 1 =>
    if i < input.length then
      if input.getD i ' ' = '\'' then
        if i = 0 then []
        else if input.getD (i-1) ' ' ≠ '\\' ∨ goHasSuffix (input.take (i+1)) ['\\', '\\', '\''] then
          input.take i
        else getUntilClosingSingleQuoteLoop fuel input (i+1)
      else getUntilClosingSingleQuoteLoop fuel input (i+1)
    else input

/-- `getUntilClosingSingleQuote` from `src/unnamed/part_000`: returns the text
before the closing single quote, or the whole input when no quote closes. -/
def getUntilClosingSingleQuote (input : List Char) : List Char :=
  getUntilClosingSingleQuoteLoop input.length input 0

/-- Loop body of `getRepeatOf` (file `src/unnamed/part_000`). -/
def getRepeatOfLoop (fuel : Nat) (input target : List Char) (i : Nat) : List Char :=
  match fuel with
  | 0 => input
  | fuel + 1 =>
    if i < input.length then
      if ¬ ((input.drop i).take target.length == target) then
        input.take (i + target.length - 1)
      else getRepeatOfLoop fuel input target (i+1)
    else input

/-- `getRepeatOf` from `src/unnamed/part_000`: longest run of `target` at the
head of `input` (called with a single-character `target`). -/
def getRepeatOf (input target : List Char) : List Char :=
  getRepeatOfLoop input.length input target 0

/-- `tokenSerachTable` from `src/unnamed/part_000`: first character to the
ordered candidate spellings of that token family (order is load-bearing). -/
def tokenSerachTable (c : Char) : Option (List (List Char)) :=
  if c = 'M' then some ["MMMM".toList, "MMM".toList, "MST".toList, "MM".toList, "M".toList]
  else if c = 'w' then some ["ww".toList, "w".toList]
  else if c = 'd' then some ["ddd".toList, "dd".toList, "d".toList]
  else if c = 'D' then some ["DDD".toList, "DD".toList, "D".toList]
  else if c = 'H' then some ["HH".toList]
  else if c = 'h' then some ["hh".toList, "h".toList]
  else if c = 'm' then some ["mm".toList, "m".toList]
  else if c = 's' then some ["ss".toList, "s".toList]
  else if c = 'Y' then some ["YYYY".toList, "YY".toList]
  else if c = 'y' then some ["yyyy".toList, "yy".toList]
  else if c = 'A' then some ["A".toList]
  else if c = 'a' then some ["a".toList]
  else if c = 'Z' then some ["Z07:00:00".toList, "Z070000".toList, "Z07".toList, "ZZ".toList, "Z".toList]
  else if c = '-' then some ["-07:00:00".toList, "-070000".toList, "-07:00".toList, "-0700".toList, "-07".toList]
  else none

/-- The inner candidate loop of `nextChunk`: first spelling in the candidate
list that is a prefix of `s` (`strings.HasPrefix(input[i:], possible)`). -/
def firstPrefixMatch (cands : List (List Char)) (s : List Char) : Option (List Char) :=
  match cands with
  | [] => none
  | c :: rest => if goHasPrefix s c then some c else firstPrefixMatch rest s

/-- The `FormatError` struct from `src/unnamed/part_000`. The Go code stores
`expected` already formatted by `fmt.Sprintf("must be prefixed with one of
%+v", possibleSequences)`; we keep the spelling list that string is built
from. -/
structure FormatError where
  idx : Nat
  expected : List (List Char)
  actual : List Char
  msg : String
deriving DecidableEq, Repr

/-- The five return values of `nextChunk` (`prefix`, `found`, `suffix`,
`isToken`, `err`). -/
structure NextChunkRes where
  pre : List Char
  found : List Char
  suffix : List Char
  isToken : Bool
  err : Option FormatError
deriving DecidableEq, Repr

/-- Loop body of `nextChunk` from `src/unnamed/part_000`, scanning from index
`i`. Faithful to the Go switch: `\\` returns `input[i+1:i+2]` and
`input[i+2:]` (both of which can panic at the end of the input); `.` with a
`.S`/`.9`/`.0` lookahead produces a fractional-second token; `'` scans to the
closing quote and slices past it (which panics when the quote never closes);
otherwise the first-character table is consulted, `-` without a match falls
through, any other table hit without a matching spelling is a `FormatError`.
Fuel exhaustion coincides with the loop's natural exit value. -/
def nextChunkLoop (fuel : Nat) (input : List Char) (i : Nat) : Except GoPanic NextChunkRes :=
  match fuel with
  | 0 => .ok ⟨input, [], [], false, none⟩
  | fuel + 1 =>
    if i < input.length then
      let c := input.getD i ' '
      if c = '\\' then
        match goSlice input (i+1) (i+2) with
        | .error p => .error p
        | .ok found =>
          match goSliceFrom input (i+2) with
          | .error p => .error p
          | .ok suffix => .ok ⟨input.take i, found, suffix, false, none⟩
      else if c = '.' ∧ (goHasPrefix (input.drop i) ".S".toList ∨
          goHasPrefix (input.drop i) ".9".toList ∨ goHasPrefix (input.drop i) ".0".toList) then
        let repeated := getRepeatOf (input.drop (i+1)) ((input.drop (i+1)).take 1)
        .ok ⟨input.take i, '.' :: repeated, input.drop (i + 1 + repeated.length), true, none⟩
      else if c = '\'' then
        let unescaped := getUntilClosingSingleQuote (input.drop (i+1))
        match goSliceFrom input (i + unescaped.length + 2) with
        | .error p => .error p
        | .ok suffix => .ok ⟨input.take i, unescaped, suffix, false, none⟩
      else
        match tokenSerachTable c with
        | some cands =>
          match firstPrefixMatch cands (input.drop i) with
          | some p => .ok ⟨input.take i, p, input.drop (i + p.length), true, none⟩
          | none =>
            if c = '-' then nextChunkLoop fuel input (i+1)
            else .ok ⟨[], [], [], false, some ⟨i, cands, input.drop i, "maybe wrong len, like Y or YYY."⟩⟩
        | none => nextChunkLoop fuel input (i+1)
    else .ok ⟨input, [], [], false, none⟩

/-- `nextChunk` from `src/unnamed/part_000`. -/
def nextChunk (input : List Char) : Except GoPanic NextChunkRes :=
  nextChunkLoop input.length input 0

/-- `tokenTable` from `src/unnamed/part_000`: recognized token to Go
reference-date token. -/
def tokenTable (t : List Char) : Option (List Char) :=
  if t = "MMMM".toList then some "January".toList
  else if t = "MMM".toList then some "Jan".toList
  else if t = "M".toList then some "1".toList
  else if t = "MM".toList then some "01".toList
  else if t = "ww".toList then some "Monday".toList
  else if t = "w".toList then some "Mon".toList
  else if t = "D".toList then some "2".toList
  else if t = "d".toList then some "2".toList
  else if t = "DD".toList then some "02".toList
  else if t = "dd".toList then some "02".toList
  else if t = "DDD".toList then some "002".toList
  else if t = "ddd".toList then some "002".toList
  else if t = "HH".toList then some "15".toList
  else if t = "h".toList then some "3".toList
  else if t = "hh".toList then some "03".toList
  else if t = "m".toList then some "4".toList
  else if t = "mm".toList then some "04".toList
  else if t = "s".toList then some "5".toList
  else if t = "ss".toList then some "05".toList
  else if t = "YYYY".toList then some "2006".toList
  else if t = "yyyy".toList then some "2006".toList
  else if t = "YY".toList then some "06".toList
  else if t = "yy".toList then some "06".toList
  else if t = "A".toList then some "PM".toList
  else if t = "a".toList then some "pm".toList
  else if t = "MST".toList then some "MST".toList
  else if t = "ZZ".toList then some "Z0700".toList
  else if t = "Z070000".toList then some "Z070000".toList
  else if t = "Z07".toList then some "Z07".toList
  else if t = "Z".toList then some "Z07:00".toList
  else if t = "Z07:00:00".toList then some "Z07:00:00".toList
  else if t = "-0700".toList then some "-0700".toList
  else if t = "-070000".toList then some "-070000".toList
  else if t = "-07".toList then some "-07".toList
  else if t = "-07:00".toList then some "-07:00".toList
  else if t = "-07:00:00".toList then some "-07:00:00".toList
  else none

/-- `timeFormatToken.toGoFmt` from `src/unnamed/part_000`: static table
lookup, the computed `.S…`/`.0…`/`.9…` fractional-second cases, otherwise a
panic. -/
def toGoFmt (tt : List Char) : Except GoPanic (List Char) :=
  match tokenTable tt with
  | some tok => .ok tok
  | none =>
    if goHasPrefix tt ".S".toList then .ok (tt.map (fun c => if c = 'S' then '0' else c))
    else if goHasPrefix tt ".0".toList ∨ goHasPrefix tt ".9".toList then .ok tt
    else .error (.unknownToken tt)

/-- The `for len(input) > 0` loop of `ReplaceTimeToken` from
`src/unnamed/part_000`: take the next chunk, stop on its error, append the
translated token or the literal chunk, continue on the rest. -/
def replaceTimeTokenLoop (fuel : Nat) (input : List Char) :
    Except GoPanic (Except FormatError (List Char)) :=
  match fuel with
  | 0 => if input = [] then .ok (.ok []) else .error .outOfFuel
  | fuel + 1 =>
    if input = [] then .ok (.ok [])
    else
      match nextChunk input with
      | .error p => .error p
      | .ok r =>
        match r.err with
        | some e => .ok (.error e)
        | none =>
          match (if r.isToken then toGoFmt r.found else .ok r.found) with
          | .error p => .error p
          | .ok mid =>
            match replaceTimeTokenLoop fuel r.suffix with
            | .error p => .error p
            | .ok (.error e) => .ok (.error e)
            | .ok (.ok rest) => .ok (.ok (r.pre ++ mid ++ rest))

/-- `ReplaceTimeToken` from `src/unnamed/part_000`: translates a concrete
(already-expanded) format string into a Go reference-date format string, or
returns the first `FormatError`. -/
def replaceTimeToken (input : List Char) : Except GoPanic (Except FormatError (List Char)) :=
  replaceTimeTokenLoop (input.length + 1) input

/-! ### The closing-quote rule of `getUntilClosingSingleQuote` -/

/-- Number of consecutive backslashes in `input` immediately preceding
index `i`. -/
def cntPrevBS (input : List Char) (i : Nat) : Nat :=
  match i with
  | 0 => 0
  | j + 1 => if input.getD j ' ' = '\\' then cntPrevBS input j + 1 else 0

/-- The closing-quote rule as amended: the first index at or after `i`
holding a `'` preceded by zero, or by at least two, consecutive
backslashes. -/
def findCloseFrom (fuel : Nat) (input : List Char) (i : Nat) : Option Nat :=
  match fuel with
  | 0 => none
  | fuel + 1 =>
    if i < input.length then
      if input.getD i ' ' = '\'' ∧ (cntPrevBS input i = 0 ∨ 2 ≤ cntPrevBS input i) then some i
      else findCloseFrom fuel input (i+1)
    else none

/-- First position where the scan of `getUntilClosingSingleQuote` closes,
per the amended rule. -/
def findClose (input : List Char) : Option Nat :=
  findCloseFrom input.length input 0

theorem cntPrevBS_eq_zero_iff (input : List Char) (i : Nat) :
    cntPrevBS input i = 0 ↔ (i = 0 ∨ input.getD (i-1) ' ' ≠ '\\') := by
  match i with
  | 0 => simp [cntPrevBS]
  | j + 1 =>
    unfold cntPrevBS
    split <;> simp_all

theorem two_le_cntPrevBS_iff (input : List Char) (i : Nat) :
    2 ≤ cntPrevBS input i ↔
      (2 ≤ i ∧ input.getD (i-1) ' ' = '\\' ∧ input.getD (i-2) ' ' = '\\') := by
  match i with
  | 0 => simp [cntPrevBS]
  | 1 =>
    unfold cntPrevBS
    split <;> simp [cntPrevBS]
  | j + 2 =>
    show 2 ≤ cntPrevBS input (j+2) ↔ _
    unfold cntPrevBS
    split
    · unfold cntPrevBS
      split <;> simp_all
    · simp_all

theorem getElem?_eq_some_iff_getD (l : List Char) (j : Nat) (hj : j < l.length) (a : Char) :
    l[j]? = some a ↔ l.getD j ' ' = a := by
  simp [List.getElem?_eq_getElem hj]

theorem take3_beq_iff (l : List Char) (a b c : Char) :
    (l.take 3 == [a, b, c]) = true ↔ l[0]? = some a ∧ l[1]? = some b ∧ l[2]? = some c := by
  match l with
  | [] => simp
  | [x] => simp
  | [x, y] => simp
  | x :: y :: z :: t => simp [List.take]

theorem goHasSuffix_take_iff (input : List Char) (i : Nat) (hi : i < input.length)
    (hq : input.getD i ' ' = '\'') :
    goHasSuffix (input.take (i+1)) ['\\', '\\', '\''] = true ↔
      (2 ≤ i ∧ input.getD (i-1) ' ' = '\\' ∧ input.getD (i-2) ' ' = '\\') := by
  unfold goHasSuffix
  have hlen : (input.take (i+1)).length = i + 1 := List.length_take_of_le (by omega)
  rw [Bool.and_eq_true, hlen]
  have hL : (['\\', '\\', '\''] : List Char).length = 3 := rfl
  rw [hL, decide_eq_true_eq]
  by_cases h2 : 2 ≤ i
  · have h3 : i + 1 - 3 = i - 2 := by omega
    have h3' : i + 1 - (i - 2) = 3 := by omega
    rw [h3, List.drop_take, h3', take3_beq_iff]
    rw [List.getElem?_drop, List.getElem?_drop, List.getElem?_drop]
    have e0 : i - 2 + 0 = i - 2 := by omega
    have e1 : i - 2 + 1 = i - 1 := by omega
    have e2 : i - 2 + 2 = i := by omega
    rw [e0, e1, e2]
    rw [getElem?_eq_some_iff_getD input (i-2) (by omega),
        getElem?_eq_some_iff_getD input (i-1) (by omega),
        getElem?_eq_some_iff_getD input i hi]
    constructor
    · rintro ⟨-, ha, hb, -⟩
      exact ⟨h2, hb, ha⟩
    · rintro ⟨-, hb, ha⟩
      exact ⟨by omega, ha, hb, hq⟩
  · constructor
    · rintro ⟨h, -⟩
      omega
    · rintro ⟨h, -⟩
      omega

theorem gucsqLoop_eq_findCloseFrom (fuel : Nat) (input : List Char) :
    ∀ i, getUntilClosingSingleQuoteLoop fuel input i =
      (match findCloseFrom fuel input i with
       | some j => input.take j
       | none => input) := by
  induction fuel with
  | zero => intro i; simp [getUntilClosingSingleQuoteLoop, findCloseFrom]
  | succ fuel ih =>
    intro i
    unfold getUntilClosingSingleQuoteLoop findCloseFrom
    by_cases hi : i < input.length
    · simp only [if_pos hi]
      by_cases hq : input.getD i ' ' = '\''
      · simp only [if_pos hq]
        by_cases h0 : i = 0
        · subst h0
          have hspec : input.getD 0 ' ' = '\'' ∧
              (cntPrevBS input 0 = 0 ∨ 2 ≤ cntPrevBS input 0) := ⟨hq, Or.inl rfl⟩
          rw [if_pos hspec]
          simp
        · simp only [if_neg h0]
          have hcnt0 := cntPrevBS_eq_zero_iff input i
          have hcnt2 := two_le_cntPrevBS_iff input i
          have hbridge := goHasSuffix_take_iff input i hi hq
          by_cases hcode : input.getD (i-1) ' ' ≠ '\\' ∨
              goHasSuffix (input.take (i+1)) ['\\', '\\', '\''] = true
          · have hspec : input.getD i ' ' = '\'' ∧
                (cntPrevBS input i = 0 ∨ 2 ≤ cntPrevBS input i) := by
              refine ⟨hq, ?_⟩
              rcases hcode with h | h
              · exact Or.inl (hcnt0.mpr (Or.inr h))
              · exact Or.inr (hcnt2.mpr (hbridge.mp h))
            rw [if_pos hcode, if_pos hspec]
          · have hspec : ¬ (input.getD i ' ' = '\'' ∧
                (cntPrevBS input i = 0 ∨ 2 ≤ cntPrevBS input i)) := by
              rintro ⟨-, h | h⟩
              · rcases hcnt0.mp h with h' | h'
                · exact h0 h'
                · exact hcode (Or.inl h')
              · exact hcode (Or.inr (hbridge.mpr (hcnt2.mp h)))
            rw [if_neg hcode, if_neg hspec, ih (i+1)]
      · have hspec : ¬ (input.getD i ' ' = '\'' ∧
            (cntPrevBS input i = 0 ∨ 2 ≤ cntPrevBS input i)) := by
          rintro ⟨h, -⟩; exact hq h
        rw [if_neg hq, if_neg hspec, ih (i+1)]
    · simp [if_neg hi]

/-- Claim C4, counterexample: in `abc\\\'xyz'` the first `'` (index 6) is
preceded by exactly three consecutive backslashes — an odd number, so per the
claim the scan must keep going — yet `getUntilClosingSingleQuote` closes the
block right there, returning the first six characters instead of scanning to
the later unescaped quote. -/
theorem c4_counterexample :
    getUntilClosingSingleQuote "abc\\\\\\'xyz'".toList = "abc\\\\\\'xyz'".toList.take 6 ∧
    "abc\\\\\\'xyz'".toList.getD 6 ' ' = '\'' ∧
    cntPrevBS "abc\\\\\\'xyz'".toList 6 = 3 ∧
    "abc\\\\\\'xyz'".toList.take 6 ≠ "abc\\\\\\'xyz".toList :=
  ⟨rfl, rfl, rfl, by decide⟩

/-- Claim C4 as amended: when scanning a quoted block, the closing quote is
the first `'` preceded by zero consecutive backslashes or by at least two
consecutive backslashes (the scan inspects only the two characters before the
quote); a `'` preceded by exactly one backslash is an escaped quote and
scanning continues, but a `'` preceded by exactly three backslashes closes
the block. When no quote closes, the whole input is returned. -/
theorem c4_amended (input : List Char) :
    getUntilClosingSingleQuote input =
      (match findClose input with
       | some j => input.take j
       | none => input) :=
  gucsqLoop_eq_findCloseFrom input.length input 0

/-- Claim C5: `ReplaceTimeToken` (the Translate stage) on the token string
`YYY` fails with a `FormatError` (Token Error): the lexer first consumes the
valid spelling `YY`, then the remaining `Y` matches no spelling of the
`Y` family, and the error reports the position in the remaining text, the
acceptable spellings `YYYY` and `YY`, and the actual trailing text `Y`. -/
theorem c5_translate_yyy_token_error :
    replaceTimeToken "YYY".toList =
      .ok (.error ⟨0, ["YYYY".toList, "YY".toList], "Y".toList,
        "maybe wrong len, like Y or YYY."⟩) := rfl

/-- Claim C8, failing inputs: `ReplaceTimeToken` does not stay within slice
bounds on every input. A template ending in a lone backslash panics at the Go
slice expression `input[i+1:i+2]` (here `[1:2]` on a length-1 string), and an
unterminated single quote panics at `input[i+len(unescaped)+2:]` (here `[5:]`
on a length-4 string). -/
theorem c8_failing_inputs :
    replaceTimeToken ['\\'] = .error (.sliceOOR 1 2 1) ∧
    replaceTimeToken "'abc".toList = .error (.sliceOOR 5 4 4) :=
  ⟨rfl, rfl⟩

/-! ### The expansion tree of `src/optional_string.go` -/

/-- `valueType` from `src/optional_string.go`. -/
inductive ValueTyp where
  | normal
  | singleQuoteEscaped
  | slashEscaped
deriving DecidableEq, Repr

/-- `value` from `src/optional_string.go`: a literal run and its escaping
origin. -/
structure Value where
  typ : ValueTyp
  val : List Char
deriving DecidableEq, Repr

/-- `rawString` from `src/optional_string.go`: an ordered list of literal
runs. -/
abbrev RawString := List Value

/-- `rawString.String` from `src/optional_string.go`: renders a tagged
sequence by concatenating run text, regardless of origin. -/
def render : RawString → List Char
  | [] => []
  | v :: t => v.val ++ render t

theorem render_append (a b : RawString) : render (a ++ b) = render a ++ render b := by
  induction a with
  | nil => rfl
  | cons v t ih => simp [render, ih]

/-- `treeNode` from `src/optional_string.go`. Go links nodes through
possibly-nil pointers; the `nil` constructor models the nil pointer. A node
holds its accumulated runs (`value`), whether it came from a bracket group
(`typ == optional`), the lazily created first nested optional group (`left`)
and the sibling continuation (`right`). -/
inductive TreeNode where
  | nil
  | mk (value : RawString) (opt : Bool) (left : TreeNode) (right : TreeNode)
deriving DecidableEq, Repr

/-- `treeNode.IsOptional`. -/
def isOpt : TreeNode → Bool
  | .nil => false
  | .mk _ o _ _ => o

/-- `treeNode.Flatten` from `src/optional_string.go`: self, then appending
each flattening of the nested optional (`left`), then the cartesian product
with the sibling continuation (`right`) when some continuation renders
non-empty, then — for an optional node with non-empty own rendering — the
extra empty sequence that skips the group. (`Flatten` is never invoked on a
nil pointer: the call sites guard with `HasLeft`/`HasRight`.) -/
def flatten : TreeNode → List RawString
  | .nil => []
  | .mk value opt l r =>
    let cur : RawString := value
    let total0 : List RawString := if value.length > 0 then [cur] else []
    let total1 : List RawString :=
      match l with
      | .nil => total0
      | .mk lv lo ll lr => total0 ++ (flatten (.mk lv lo ll lr)).map (fun s => cur ++ s)
    let total2 : List RawString :=
      match r with
      | .nil => total1
      | .mk rv ro rl rr =>
        let rfl' := flatten (.mk rv ro rl rr)
        if rfl'.any (fun rs => !(render rs == [])) then
          rfl'.flatMap (fun rws => total1.map (fun oo => oo ++ rws))
        else total1
    if opt = true ∧ render cur ≠ [] then total2 ++ [[]] else total2

/-- Number of optional groups (nodes marked optional) in a subtree. -/
def optCount : TreeNode → Nat
  | .nil => 0
  | .mk _ o l r => (if o then 1 else 0) + optCount l + optCount r

/-- The invariant `decode` maintains (spec §3: `isOptional` is true only for
nodes reached through a bracket group, and §4.2: `child` is always such a
group): every `left` child is marked optional. -/
def WFTree : TreeNode → Prop
  | .nil => True
  | .mk _ _ l r => (l = .nil ∨ isOpt l = true) ∧ WFTree l ∧ WFTree r

/-- The distinct renderings of a list of tagged sequences. -/
def rset (A : List RawString) : Finset (List Char) :=
  (A.map render).toFinset

/-- The distinct renderings of the flattening of a node. -/
def renderSet (n : TreeNode) : Finset (List Char) :=
  rset (flatten n)

theorem rset_append (A B : List RawString) : rset (A ++ B) = rset A ∪ rset B := by
  simp [rset]

theorem rset_map_append_left (cur : RawString) (A : List RawString) :
    rset (A.map (fun s => cur ++ s)) = (rset A).image (fun t => render cur ++ t) := by
  unfold rset
  have h : (A.map fun s => cur ++ s).map render = (A.map render).map (fun t => render cur ++ t) := by
    rw [List.map_map, List.map_map]
    apply List.map_congr_left
    intro s _
    simp [Function.comp, render_append]
  rw [h]
  ext x
  simp

theorem rset_append_single_empty (A : List RawString) :
    rset (A ++ [[]]) = insert [] (rset A) := by
  rw [rset_append]
  have h : rset [([] : RawString)] = {([] : List Char)} := by simp [rset, render]
  rw [h, Finset.union_comm, ← Finset.insert_eq]

/-- Stage 1 of `Flatten`: own content, then the flattenings of the nested
optional child each appended to the own content. -/
def stage1 (v : RawString) (l : TreeNode) : List RawString :=
  (if v.length > 0 then [v] else []) ++
    (if l = .nil then [] else (flatten l).map (fun s => v ++ s))

/-- Stage 2 of `Flatten`: the cartesian product with the sibling
continuation, taken only when some continuation sequence renders
non-empty. -/
def stage2 (v : RawString) (l r : TreeNode) : List RawString :=
  if r = .nil then stage1 v l
  else if (flatten r).any (fun rs => !(render rs == [])) then
    (flatten r).flatMap (fun rws => (stage1 v l).map (fun oo => oo ++ rws))
  else stage1 v l

theorem flatten_mk (v : RawString) (o : Bool) (l r : TreeNode) :
    flatten (.mk v o l r) =
      (if o = true ∧ render v ≠ [] then stage2 v l r ++ [[]] else stage2 v l r) := by
  cases l <;> cases r <;> simp [flatten, stage1, stage2]

theorem rset_stage1_card (v : RawString) (l : TreeNode)
    (hins : (insert [] (rset (flatten l))).card ≤ 2 ^ optCount l) :
    (rset (stage1 v l)).card ≤ 2 ^ optCount l := by
  have hbase : rset (if v.length > 0 then [v] else []) ⊆
      (insert [] (rset (flatten l))).image (fun t => render v ++ t) := by
    split
    · intro x hx
      simp only [rset, List.map_cons, List.map_nil, List.mem_toFinset, List.mem_cons,
        List.not_mem_nil, or_false] at hx
      subst hx
      exact Finset.mem_image.mpr ⟨[], Finset.mem_insert_self _ _, by simp⟩
    · intro x hx
      simp [rset] at hx
  have hmapped : rset (if l = .nil then [] else (flatten l).map (fun s => v ++ s)) ⊆
      (insert [] (rset (flatten l))).image (fun t => render v ++ t) := by
    split
    · intro x hx
      simp [rset] at hx
    · rw [rset_map_append_left]
      exact Finset.image_subset_image (Finset.subset_insert _ _)
  calc (rset (stage1 v l)).card
      ≤ ((insert [] (rset (flatten l))).image (fun t => render v ++ t)).card := by
        apply Finset.card_le_card
        unfold stage1
        rw [rset_append]
        exact Finset.union_subset hbase hmapped
    _ ≤ (insert [] (rset (flatten l))).card := Finset.card_image_le
    _ ≤ 2 ^ optCount l := hins

theorem rset_product_card (A B : List RawString) :
    (rset (B.flatMap (fun rws => A.map (fun oo => oo ++ rws)))).card ≤
      (rset A).card * (rset B).card := by
  have hsub : rset (B.flatMap (fun rws => A.map (fun oo => oo ++ rws))) ⊆
      Finset.image₂ (fun x y => x ++ y) (rset A) (rset B) := by
    intro x hx
    simp only [rset, List.mem_toFinset, List.mem_map, List.mem_flatMap] at hx
    obtain ⟨rs, ⟨rws, hrws, oo, hoo, rfl⟩, rfl⟩ := hx
    rw [render_append]
    apply Finset.mem_image₂.mpr
    refine ⟨render oo, ?_, render rws, ?_, rfl⟩
    · simp only [rset, List.mem_toFinset, List.mem_map]
      exact ⟨oo, hoo, rfl⟩
    · simp only [rset, List.mem_toFinset, List.mem_map]
      exact ⟨rws, hrws, rfl⟩
  calc (rset (B.flatMap (fun rws => A.map (fun oo => oo ++ rws)))).card
      ≤ (Finset.image₂ (fun x y => x ++ y) (rset A) (rset B)).card :=
        Finset.card_le_card hsub
    _ ≤ (rset A).card * (rset B).card := Finset.card_image₂_le _ _ _

theorem rset_stage2_card (v : RawString) (l r : TreeNode)
    (h1 : (rset (stage1 v l)).card ≤ 2 ^ optCount l)
    (hr : (rset (flatten r)).card ≤ 2 ^ optCount r) :
    (rset (stage2 v l r)).card ≤ 2 ^ (optCount l + optCount r) := by
  unfold stage2
  split
  · rename_i hrn
    subst hrn
    simpa [optCount] using h1
  · split
    · calc (rset ((flatten r).flatMap (fun rws => (stage1 v l).map (fun oo => oo ++ rws)))).card
          ≤ (rset (stage1 v l)).card * (rset (flatten r)).card := rset_product_card _ _
        _ ≤ 2 ^ optCount l * 2 ^ optCount r := Nat.mul_le_mul h1 hr
        _ = 2 ^ (optCount l + optCount r) := (pow_add 2 _ _).symm
    · exact le_trans h1 (Nat.pow_le_pow_right (by norm_num) (Nat.le_add_right _ _))

theorem flatten_card_bound (n : TreeNode) (hw : WFTree n) :
    (renderSet n).card ≤ 2 ^ optCount n ∧
    (isOpt n = true → (insert [] (renderSet n)).card ≤ 2 ^ optCount n) := by
  induction n with
  | nil =>
    refine ⟨?_, ?_⟩
    · simp [renderSet, rset, flatten]
    · intro h
      simp [isOpt] at h
  | mk v o l r ihl ihr =>
    obtain ⟨hlo, hwl, hwr⟩ := hw
    have hlins : (insert [] (rset (flatten l))).card ≤ 2 ^ optCount l := by
      rcases hlo with h | h
      · subst h
        simp [flatten, rset, optCount]
      · exact (ihl hwl).2 h
    have h1 := rset_stage1_card v l hlins
    have h2 := rset_stage2_card v l r h1 ((ihr hwr).1)
    have hpos : (1:Nat) ≤ 2 ^ (optCount l + optCount r) := Nat.one_le_two_pow
    have hins2 : (insert [] (rset (stage2 v l r))).card ≤ 2 ^ (optCount l + optCount r) + 1 :=
      le_trans (Finset.card_insert_le _ _) (by omega)
    constructor
    · unfold renderSet
      rw [flatten_mk]
      split
    
      · rename_i hcond
        rw [rset_append_single_empty]
        calc (insert [] (rset (stage2 v l r))).card
            ≤ 2 ^ (optCount l + optCount r) + 1 := hins2
          _ ≤ 2 ^ optCount (TreeNode.mk v o l r) := by
              simp only [optCount, hcond.1, if_true]
              have hmul : 2 ^ (1 + optCount l + optCount r) =
                  2 * 2 ^ (optCount l + optCount r) := by
                rw [Nat.add_assoc, pow_add, pow_one]
              omega
      · refine le_trans h2 (Nat.pow_le_pow_right (by norm_num) ?_)
        cases o <;> simp [optCount]
    · intro hopt
      unfold renderSet
      rw [flatten_mk]
      have hoc : optCount (TreeNode.mk v o l r) = 1 + optCount l + optCount r := by
        simp [optCount, isOpt] at hopt ⊢
        simp [hopt]
      rw [hoc]
      have hgoal : (insert [] (rset (stage2 v l r))).card ≤
          2 ^ (1 + optCount l + optCount r) := by
        have hmul : 2 ^ (1 + optCount l + optCount r) =
            2 * 2 ^ (optCount l + optCount r) := by
          rw [Nat.add_assoc, pow_add, pow_one]
        omega
      split
      · rw [rset_append_single_empty, Finset.insert_idem]
        exact hgoal
      · exact hgoal

/-- Claim C1, counterexample: `Flatten` on the empty expansion tree (what
`decode` produces for the empty template) returns zero sequences, not at
least one; and on the tree decoded from `a[b]` (own content `a`, one optional
child `b`) it returns three sequences — `a`, `ab`, `a` again — exceeding
`2^1 = 2` because the variant that skips the optional child is emitted both
as the bare own content and as own content appended with the child's empty
variant. -/
theorem c1_counterexample :
    flatten (TreeNode.mk [] false .nil .nil) = [] ∧
    (flatten (TreeNode.mk [⟨.normal, "a".toList⟩] false
        (TreeNode.mk [⟨.normal, "b".toList⟩] true .nil .nil) .nil)).length = 3 ∧
    optCount (TreeNode.mk [⟨.normal, "a".toList⟩] false
        (TreeNode.mk [⟨.normal, "b".toList⟩] true .nil .nil) .nil) = 1 ∧
    2 ^ (1:Nat) < 3 :=
  ⟨rfl, rfl, rfl, by norm_num⟩

/-- Claim C1 as amended: `Flatten` may return zero sequences (the empty tree)
and its raw output may contain duplicate sequences, so its length can exceed
`2^k`; the bound that does hold is on distinct renderings: for every
expansion tree in which each `left` (nested-optional) child is marked
optional — the invariant `decode` maintains — the set of distinct renderings
of `Flatten`'s output has at most `2^k` elements, `k` the number of optional
nodes in the subtree. -/
theorem c1_amended (n : TreeNode) (hw : WFTree n) :
    (renderSet n).card ≤ 2 ^ optCount n :=
  (flatten_card_bound n hw).1

theorem c1_amended_witness :
    WFTree (TreeNode.mk [⟨.normal, "a".toList⟩] false
        (TreeNode.mk [⟨.normal, "b".toList⟩] true .nil .nil) .nil) ∧
    (renderSet (TreeNode.mk [⟨.normal, "a".toList⟩] false
        (TreeNode.mk [⟨.normal, "b".toList⟩] true .nil .nil) .nil)).card ≤
      2 ^ optCount (TreeNode.mk [⟨.normal, "a".toList⟩] false
        (TreeNode.mk [⟨.normal, "b".toList⟩] true .nil .nil) .nil) :=
  ⟨⟨Or.inr rfl, ⟨Or.inl rfl, trivial, trivial⟩, trivial⟩,
    c1_amended _ ⟨Or.inr rfl, ⟨Or.inl rfl, trivial, trivial⟩, trivial⟩⟩

/-! ### The optional-string grammar

`MakeOptionalStringParser` (in both `src/optional_string.go` and
`src/optional_string/parser.go`) builds the grammar from the goparsec
combinators `Atom`, `Token`, `OrdChoice`, `Many`, `Kleene` and `And`.  The
goparsec engine is third-party code, not part of this repository; its
combinator semantics is modelled from the spec (§4.1): a plain run is a
maximal run of characters other than `[`, `]`, `\` and `'`; a backslash
escape is `\` followed by exactly one character; `OrdChoice` takes the first
matching alternative and is transparent (the winning child is returned
unwrapped — which is why `recursiveDecode` only ever switches on
`OPTIONALSTRING`, `OPTIONAL`, `CHARS`, `ESCAPED`, `ITEMS` and the terminal
names); `Many` is one-or-more; `Kleene` is zero-or-more; `And` is a
sequence.  The two files share every production except the top level:
flextime iterates `optional | chars`, optionalstring iterates
`optional | item` where `item = chars | escaped | optional`. -/

/-- A parse-tree node (goparsec `Queryable`): a terminal with its matched
text, or a named nonterminal with children.  `GetValue` of a nonterminal is
the concatenation of its children's values; the concatenation is computed
once, when the node is built (`mkPNode`), and stored in the node. -/
inductive PNode where
  | term (name : String) (text : List Char)
  | node (name : String) (value : List Char) (children : List PNode)

/-- `Queryable.GetName`. -/
def pname : PNode → String
  | .term n _ => n
  | .node n _ _ => n

/-- `Queryable.GetChildren`. -/
def pchildren : PNode → List PNode
  | .term _ _ => []
  | .node _ _ cs => cs

/-- `Queryable.GetValue`. -/
def pvalue : PNode → List Char
  | .term _ t => t
  | .node _ v _ => v

/-- Concatenation of the values of a children list. -/
def pvalueList (cs : List PNode) : List Char :=
  cs.foldr (fun n acc => pvalue n ++ acc) []

/-- Build a nonterminal node: its value is its children's concatenated
values. -/
def mkPNode (name : String) (cs : List PNode) : PNode :=
  .node name (pvalueList cs) cs

/-- A character a plain run may contain: anything but `[`, `]`, `\`, `'`
(the `parsec.Token` regex `[^\[\]\\']+`). -/
def isNormalChar (c : Char) : Bool :=
  c ≠ '[' && c ≠ ']' && c ≠ '\\' && c ≠ '\''

/-- `parsec.Atom`: one literal character. -/
def pAtom (c : Char) (name : String) (s : List Char) : Option (PNode × List Char) :=
  match s with
  | c' :: rest => if c' = c then some (.term name [c'], rest) else none
  | [] => none

/-- The `escapedchar` terminal (`parsec.Token` regex `\\.`): a backslash
followed by one character (the regex dot does not match a newline). -/
def pEscapedchar (s : List Char) : Option (PNode × List Char) :=
  match s with
  | '\\' :: c :: rest => if c = '\n' then none else some (.term "ESCAPEDCHAR" ['\\', c], rest)
  | _ => none

/-- The `normalchars` terminal (`parsec.Token` regex `[^\[\]\\']+`): a
maximal non-empty run of plain characters. -/
def pNormalchars (s : List Char) : Option (PNode × List Char) :=
  let run := s.takeWhile isNormalChar
  if run.isEmpty then none else some (.term "NORMALCHARS" run, s.drop run.length)

/-- `char := OrdChoice(CHAR, escapedchar, normalchars)` (transparent). -/
def pChar (s : List Char) : Option (PNode × List Char) :=
  match pEscapedchar s with
  | some x => some x
  | none => pNormalchars s

/-- The repetition loop of `chars := Many(CHARS, char)`. -/
def pCharsAux : Nat → List Char → List PNode × List Char
  | 0, s => ([], s)
  | fuel + 1, s =>
    match pChar s with
    | none => ([], s)
    | some (n, rest) =>
      let (ns, r) := pCharsAux fuel rest
      (n :: ns, r)

/-- `chars := Many(CHARS, char)`: one or more `char`. -/
def pChars (s : List Char) : Option (PNode × List Char) :=
  match pCharsAux s.length s with
  | ([], _) => none
  | (ns, r) => some (mkPNode "CHARS" ns, r)

/-- `charWithinEscape := OrdChoice(CHARWITHINESCAPE, escapedchar,
normalchars, opensqr, closesqr)` (transparent). -/
def pCharWithinEscape (s : List Char) : Option (PNode × List Char) :=
  match pEscapedchar s with
  | some x => some x
  | none =>
    match pNormalchars s with
    | some x => some x
    | none =>
      match pAtom '[' "OPENSQR" s with
      | some x => some x
      | none => pAtom ']' "CLOSESQR" s

/-- The repetition loop of `charsWithinEscape := Many(CHARSWITHINESCAPE,
charWithinEscape)`. -/
def pCharsWithinEscapeAux : Nat → List Char → List PNode × List Char
  | 0, s => ([], s)
  | fuel + 1, s =>
    match pCharWithinEscape s with
    | none => ([], s)
    | some (n, rest) =>
      let (ns, r) := pCharsWithinEscapeAux fuel rest
      (n :: ns, r)

/-- `charsWithinEscape := Many(CHARSWITHINESCAPE, charWithinEscape)`. -/
def pCharsWithinEscape (s : List Char) : Option (PNode × List Char) :=
  match pCharsWithinEscapeAux s.length s with
  | ([], _) => none
  | (ns, r) => some (mkPNode "CHARSWITHINESCAPE" ns, r)

/-- `escaped := And(ESCAPED, squote, charsWithinEscape, squote)`. -/
def pEscaped (s : List Char) : Option (PNode × List Char) :=
  match s with
  | '\'' :: rest =>
    match pCharsWithinEscape rest with
    | none => none
    | some (cwe, r1) =>
      match r1 with
      | '\'' :: r2 =>
        some (mkPNode "ESCAPED" [.term "SQUOTE" ['\''], cwe, .term "SQUOTE" ['\'']], r2)
      | _ => none
  | _ => none

/-- `item := OrdChoice(ITEM, chars, escaped, optional)` (transparent), with
the `optional` alternative — the recursive knot — passed in. -/
def pItemWith (popt : List Char → Option (PNode × List Char)) (s : List Char) :
    Option (PNode × List Char) :=
  match pChars s with
  | some x => some x
  | none =>
    match pEscaped s with
    | some x => some x
    | none => popt s

/-- The repetition loop of `items := Kleene(ITEMS, item)`. -/
def pItemsAuxWith (popt : List Char → Option (PNode × List Char)) :
    Nat → List Char → List PNode × List Char
  | 0, s => ([], s)
  | fuel + 1, s =>
    match pItemWith popt s with
    | none => ([], s)
    | some (n, rest) =>
      let (ns, r) := pItemsAuxWith popt fuel rest
      (n :: ns, r)

/-- `optional := And(OPTIONAL, opensqr, items, closesqr)`. -/
def pOptional : Nat → List Char → Option (PNode × List Char)
  | 0, _ => none
  | fuel + 1, s =>
    match s with
    | c :: rest =>
      if c = '[' then
        let x := pItemsAuxWith (pOptional fuel) fuel rest
        match x.2 with
        | ']' :: r2 =>
          some (mkPNode "OPTIONAL" [.term "OPENSQR" ['['], mkPNode "ITEMS" x.1,
            .term "CLOSESQR" [']']], r2)
        | _ => none
      else none
    | [] => none

/-- `item` with the `optional` alternative at the given fuel. -/
def pItem (fuel : Nat) (s : List Char) : Option (PNode × List Char) :=
  pItemWith (pOptional fuel) s

/-- The top-level Kleene loop of the flextime grammar:
`Kleene(OPTIONALSTRING, OrdChoice("items", optional, chars))`. -/
def flexTopAux : Nat → List Char → List PNode × List Char
  | 0, s => ([], s)
  | fuel + 1, s =>
    match
      (match pOptional (fuel + 1) s with
       | some x => some x
       | none => pChars s) with
    | none => ([], s)
    | some (n, rest) =>
      let (ns, r) := flexTopAux fuel rest
      (n :: ns, r)

/-- The top-level Kleene loop of the optionalstring grammar:
`Kleene(OPTIONALSTRING, OrdChoice("items", optional, item))`. -/
def optTopAux : Nat → List Char → List PNode × List Char
  | 0, s => ([], s)
  | fuel + 1, s =>
    match
      (match pOptional (fuel + 1) s with
       | some x => some x
       | none => pItem (fuel + 1) s) with
    | none => ([], s)
    | some (n, rest) =>
      let (ns, r) := optTopAux fuel rest
      (n :: ns, r)

/-- `ast.Parsewith` over the flextime grammar: the root Kleene node (it never
fails; an unparsable tail is left unconsumed and caught later by the length
check). -/
def flexParse (s : List Char) : PNode :=
  mkPNode "OPTIONALSTRING" (flexTopAux (s.length + 1) s).1

/-- `ast.Parsewith` over the optionalstring grammar. -/
def optParse (s : List Char) : PNode :=
  mkPNode "OPTIONALSTRING" (optTopAux (s.length + 1) s).1

/-! ### decode / recursiveDecode -/

/-- A fresh `&treeNode{}`. -/
def newTreeNode : TreeNode := .mk [] false .nil .nil

/-- `treeNode.AddValue`. -/
def addValue (n : TreeNode) (v : List Char) (t : ValueTyp) : TreeNode :=
  match n with
  | .nil => .nil
  | .mk value o l r => .mk (value ++ [⟨t, v⟩]) o l r

/-- `treeNode.SetAsOptional`. -/
def setAsOptional : TreeNode → TreeNode
  | .nil => .nil
  | .mk v _ l r => .mk v true l r

/-- The node `ctx.Left()` returns: the existing left child, or a freshly
created one. -/
def leftOrNew : TreeNode → TreeNode
  | .nil => newTreeNode
  | .mk _ _ .nil _ => newTreeNode
  | .mk _ _ l _ => l

/-- The node `ctx.Right()` returns. -/
def rightOrNew : TreeNode → TreeNode
  | .nil => newTreeNode
  | .mk _ _ _ .nil => newTreeNode
  | .mk _ _ _ r => r

/-- Store the (possibly mutated) left child back into the parent — the
pointer link `ctx.left = ...` that `ctx.Left()` established. -/
def setLeft (n l' : TreeNode) : TreeNode :=
  match n with
  | .nil => .nil
  | .mk v o _ r => .mk v o l' r

/-- Store the (possibly mutated) right child back into the parent. -/
def setRight (n r' : TreeNode) : TreeNode :=
  match n with
  | .nil => .nil
  | .mk v o l _ => .mk v o l r'

/-- The inner loop of the `CHARS` case of `recursiveDecode` (identical in
both packages): `NORMALCHARS` children are added as plain runs,
`ESCAPEDCHAR` children as escaped runs, anything else is
`panic("incorrect implementation: ...")`. -/
def addCharsValues (cs : List PNode) (ctx : TreeNode) : Except GoPanic TreeNode :=
  match cs with
  | [] => .ok ctx
  | v :: rest =>
    match pname v with
    | "NORMALCHARS" => addCharsValues rest (addValue ctx (pvalue v) .normal)
    | "ESCAPEDCHAR" => addCharsValues rest (addValue ctx (pvalue v) .singleQuoteEscaped)
    | _ => .error (.decodePanic (pname v) (pvalue v))

/-- The `for i := 0; i < len(nodes); i++` loop of the flextime
`recursiveDecode` (`src/optional_string.go`), with the recursive call —
the knot — passed in as `recD`.  `nodes` is the full slice this
`recursiveDecode` call received (the `OPTIONALSTRING` case re-invokes
`recursiveDecode(nodes, ctx)` on that same full slice — an infinite
recursion whenever it fires, surfacing here as fuel exhaustion); the third
argument is the part of the slice from the loop index on.  Once `onceFound`
is set by an `OPTIONAL` node, the next iteration delegates the whole
remaining slice to `ctx.Right()` and returns. -/
def flexDecodeLoopWith (recD : List PNode → TreeNode → Except GoPanic TreeNode)
    (nodes : List PNode) : List PNode → Bool → TreeNode → Except GoPanic TreeNode
  | [], _, ctx => .ok ctx
  | n :: rest', onceFound, ctx =>
    if onceFound then
      match recD (n :: rest') (rightOrNew ctx) with
      | .error p => .error p
      | .ok r' => .ok (setRight ctx r')
    else
      match pname n with
      | "OPTIONALSTRING" =>
        match recD nodes ctx with
        | .error p => .error p
        | .ok ctx' => flexDecodeLoopWith recD nodes rest' onceFound ctx'
      | "OPTIONAL" =>
        match recD (pchildren n) (setAsOptional (leftOrNew ctx)) with
        | .error p => .error p
        | .ok l' => flexDecodeLoopWith recD nodes rest' true (setLeft ctx l')
      | "CHARS" =>
        match addCharsValues (pchildren n) ctx with
        | .error p => .error p
        | .ok ctx' => flexDecodeLoopWith recD nodes rest' onceFound ctx'
      | "ESCAPED" =>
        flexDecodeLoopWith recD nodes rest' onceFound
          (addValue ctx (pvalue n) .singleQuoteEscaped)
      | "ITEMS" =>
        match recD (pchildren n) ctx with
        | .error p => .error p
        | .ok ctx' => flexDecodeLoopWith recD nodes rest' onceFound ctx'
      | _ => flexDecodeLoopWith recD nodes rest' onceFound ctx

/-- `recursiveDecode` from `src/optional_string.go` (flextime package). -/
def flexRecursiveDecode : Nat → List PNode → TreeNode → Except GoPanic TreeNode
  | 0, _, _ => .error .outOfFuel
  | fuel + 1, nodes, ctx => flexDecodeLoopWith (flexRecursiveDecode fuel) nodes nodes false ctx

/-- The loop of the optionalstring `recursiveDecode`
(`src/optional_string/parser.go`): identical to the flextime one except that
the `OPTIONALSTRING` case recurses into the node's children (not the same
slice).  (That file's dead `OPTIONAL`-with-`onceFound` branch panics instead
of using `ctx.Right()`; it is unreachable because the loop head delegates
first whenever `onceFound` is set.) -/
def optDecodeLoopWith (recD : List PNode → TreeNode → Except GoPanic TreeNode)
    (nodes : List PNode) : List PNode → Bool → TreeNode → Except GoPanic TreeNode
  | [], _, ctx => .ok ctx
  | n :: rest', onceFound, ctx =>
    if onceFound then
      match recD (n :: rest') (rightOrNew ctx) with
      | .error p => .error p
      | .ok r' => .ok (setRight ctx r')
    else
      match pname n with
      | "OPTIONALSTRING" =>
        match recD (pchildren n) ctx with
        | .error p => .error p
        | .ok ctx' => optDecodeLoopWith recD nodes rest' onceFound ctx'
      | "OPTIONAL" =>
        match recD (pchildren n) (setAsOptional (leftOrNew ctx)) with
        | .error p => .error p
        | .ok l' => optDecodeLoopWith recD nodes rest' true (setLeft ctx l')
      | "CHARS" =>
        match addCharsValues (pchildren n) ctx with
        | .error p => .error p
        | .ok ctx' => optDecodeLoopWith recD nodes rest' onceFound ctx'
      | "ESCAPED" =>
        optDecodeLoopWith recD nodes rest' onceFound
          (addValue ctx (pvalue n) .singleQuoteEscaped)
      | "ITEMS" =>
        match recD (pchildren n) ctx with
        | .error p => .error p
        | .ok ctx' => optDecodeLoopWith recD nodes rest' onceFound ctx'
      | _ => optDecodeLoopWith recD nodes rest' onceFound ctx

/-- `recursiveDecode` from `src/optional_string/parser.go` (optionalstring
package). -/
def optRecursiveDecode : Nat → List PNode → TreeNode → Except GoPanic TreeNode
  | 0, _, _ => .error .outOfFuel
  | fuel + 1, nodes, ctx => optDecodeLoopWith (optRecursiveDecode fuel) nodes nodes false ctx

mutual

/-- Fuel measure for the decode recursions: 2 per terminal, 2 plus the
children's measure per nonterminal (used only in proofs). -/
def psize : PNode → Nat
  | .term _ _ => 2
  | .node _ _ cs => 2 + psizeList cs

def psizeList : List PNode → Nat
  | [] => 0
  | n :: rest => psize n + psizeList rest

end

/-- `decode(node, root)` of the flextime package: run `recursiveDecode` on
the root's children into a fresh tree node.  The fuel `4*len+4` dominates
the recursion depth for every grammar-produced tree (proved below via
`psize`). -/
def flexDecode (node : PNode) : Except GoPanic TreeNode :=
  flexRecursiveDecode (4 * (pvalue node).length + 4) (pchildren node) newTreeNode

/-- `decode(node)` of the optionalstring package. -/
def optDecode (node : PNode) : Except GoPanic TreeNode :=
  optRecursiveDecode (4 * (pvalue node).length + 4) (pchildren node) newTreeNode

/-! ### The Expand boundary (`EnumerateOptionalString`) -/

/-- The two error shapes `EnumerateOptionalString` can return: the generic
`errors.Errorf("%+v", rcv)` produced by the deferred `recover()`, and the
structured `SyntaxError` produced by the length check. -/
inductive FlexError where
  | recovered (msg : String)
  | syntaxErr (org parsedAs : List Char)
deriving DecidableEq, Repr

/-- A `Collect` model is valid when it returns the distinct elements of its
input in some order: `set.New[string]()`, `Add` in a loop, then
`Values().Collect()` iterates a Go map, whose order is unspecified (spec §9:
"the source keeps an unspecified iteration order after dedup"). -/
def ValidCollect (collect : List (List Char) → List (List Char)) : Prop :=
  ∀ l, List.Perm (collect l) l.dedup

/-- The canonical collect: one possible iteration order. -/
def dedupCollect (l : List (List Char)) : List (List Char) := l.dedup

/-- `EnumerateOptionalString` from `src/optional_string.go`, with the
grammar engine and the set-iteration order abstracted.  The engine runs
inside `func() { defer func() { recover() ... } }`: any internal failure is
caught and wrapped by `errors.Errorf` (an ordinary error, not a
`SyntaxError`).  Then the parsed value's length is compared with the input's;
a mismatch is a `SyntaxError`.  Then the tree is decoded, flattened,
rendered, and deduplicated through a set whose iteration order is
`collect`. -/
def flexEnumerateCore (engine : List Char → Except String PNode)
    (collect : List (List Char) → List (List Char)) (s : List Char) :
    Except GoPanic (Except FlexError (List (List Char))) :=
  match engine s with
  | .error m => .ok (.error (.recovered m))
  | .ok node =>
    if (pvalue node).length ≠ s.length then .ok (.error (.syntaxErr s (pvalue node)))
    else
      match flexDecode node with
      | .error p => .error p
      | .ok root => .ok (.ok (collect ((flatten root).map render)))

/-- The in-model grammar engine: total, it never raises. -/
def goParsecEngine (s : List Char) : Except String PNode := .ok (flexParse s)

/-- `EnumerateOptionalString` (flextime), parameterized only by the
set-iteration order. -/
def flexEnumerateWith (collect : List (List Char) → List (List Char)) (s : List Char) :
    Except GoPanic (Except FlexError (List (List Char))) :=
  flexEnumerateCore goParsecEngine collect s

/-- `EnumerateOptionalString` (flextime) under the canonical iteration
order. -/
def flexEnumerate (s : List Char) : Except GoPanic (Except FlexError (List (List Char))) :=
  flexEnumerateWith dedupCollect s

/-- `EnumerateOptionalStringRaw` from `src/optional_string/parser.go`.  The
optionalstring package's `treeNode.Flatten` and value types are not under
`src/`; Modelled from the spec: §4.2 specifies the same decode/flatten
algorithm as the flextime package, so the shared `flatten` above is reused.
No set deduplication happens here: the raw sequences are returned in
order. -/
def optEnumerateRaw (s : List Char) : Except GoPanic (Except FlexError (List RawString)) :=
  let node := optParse s
  if (pvalue node).length ≠ s.length then .ok (.error (.syntaxErr s (pvalue node)))
  else
    match optDecode node with
    | .error p => .error p
    | .ok root => .ok (.ok (flatten root))

/-- `EnumerateOptionalString` from `src/optional_string/parser.go`: the
rendered view of `EnumerateOptionalStringRaw`.  The optionalstring package's
`RawString.String` is not under `src/`; Modelled from the spec: §3 — a tagged
sequence "renders to a plain string by concatenating run text regardless of
origin" — which is the shared `render` above. -/
def optEnumerateStrings (s : List Char) :
    Except GoPanic (Except FlexError (List (List Char))) :=
  match optEnumerateRaw s with
  | .error p => .error p
  | .ok (.error e) => .ok (.error e)
  | .ok (.ok raw) => .ok (.ok (raw.map render))


/-- Claim C3: under any set-iteration order, `Expand("a[b[c]]")` yields
exactly the renderings `{a, ab, abc}` and the rendering `ac` never appears:
the inner optional group cannot be taken without its enclosing optional
group. -/
theorem c3_nested_optional (collect : List (List Char) → List (List Char))
    (h : ValidCollect collect) :
    ∃ out, flexEnumerateWith collect "a[b[c]]".toList = .ok (.ok out) ∧
      out.toFinset = {"a".toList, "ab".toList, "abc".toList} ∧
      "ac".toList ∉ out := by
  have hcore : flexEnumerateWith collect ("a[b[c]]".toList) =
      .ok (.ok (collect ["a".toList, "ab".toList, "abc".toList, "ab".toList, "a".toList])) := rfl
  have hperm := h ["a".toList, "ab".toList, "abc".toList, "ab".toList, "a".toList]
  refine ⟨collect ["a".toList, "ab".toList, "abc".toList, "ab".toList, "a".toList],
    hcore, ?_, ?_⟩
  · rw [List.toFinset_eq_of_perm _ _ hperm]
    decide
  · intro hmem
    have hm2 := hperm.mem_iff.mp hmem
    exact absurd hm2 (by decide)

theorem c3_nested_optional_witness :
    ValidCollect dedupCollect ∧
    ∃ out, flexEnumerateWith dedupCollect "a[b[c]]".toList = .ok (.ok out) ∧
      out.toFinset = {"a".toList, "ab".toList, "abc".toList} ∧
      "ac".toList ∉ out :=
  ⟨fun l => List.Perm.refl l.dedup,
    c3_nested_optional dedupCollect (fun l => List.Perm.refl l.dedup)⟩

/-- A concrete model of a grammar-engine internal failure (a goparsec panic
caught by the deferred `recover()`). -/
def failingEngine : List Char → Except String PNode :=
  fun _ => .error "runtime error: goparsec internal panic"

/-- Discriminator: did `EnumerateOptionalString` return its structured
`SyntaxError`? -/
def isSyntaxError (r : Except GoPanic (Except FlexError (List (List Char)))) : Bool :=
  match r with
  | .ok (.error (.syntaxErr _ _)) => true
  | _ => false

/-- Claim C6, counterexample: an internal failure of the grammar engine is
caught at the Expand boundary, but it is converted into the generic wrapped
error `errors.Errorf("%+v", rcv)` — not into a Syntax Error value: the
`SyntaxError` struct is produced only by the parsed-length check. -/
theorem c6_counterexample :
    flexEnumerateCore failingEngine dedupCollect "abc".toList =
      .ok (.error (.recovered "runtime error: goparsec internal panic")) ∧
    isSyntaxError (flexEnumerateCore failingEngine dedupCollect "abc".toList) = false :=
  ⟨rfl, rfl⟩

/-- Claim C6 as amended: every internal failure (panic) raised by the
grammar-recognition engine during Expand is caught at the Expand boundary
and converted into an ordinary error value returned to the caller — the
generic wrapped error, not the structured Syntax Error — and no engine
failure propagates out of `EnumerateOptionalString` as an uncontrolled
failure. -/
theorem c6_amended (engine : List Char → Except String PNode)
    (collect : List (List Char) → List (List Char)) (s : List Char) (m : String)
    (h : engine s = .error m) :
    flexEnumerateCore engine collect s = .ok (.error (.recovered m)) := by
  unfold flexEnumerateCore
  rw [h]

theorem c6_amended_witness :
    failingEngine "abc".toList = .error "runtime error: goparsec internal panic" ∧
    flexEnumerateCore failingEngine dedupCollect "abc".toList =
      .ok (.error (.recovered "runtime error: goparsec internal panic")) :=
  ⟨rfl, c6_amended failingEngine dedupCollect "abc".toList
    "runtime error: goparsec internal panic" rfl⟩

/-- A second valid set-iteration order: Go map iteration may present the
same elements in a different order on another run. -/
def revCollect (l : List (List Char)) : List (List Char) := l.dedup.reverse

/-- Claim C7, counterexample: two invocations of `EnumerateOptionalString`
on the same input `a[b]`, differing only in the (unspecified) iteration
order of the deduplicating set, return the same strings in different
orders — the result is not "the same strings in the same order". -/
theorem c7_counterexample :
    ValidCollect dedupCollect ∧ ValidCollect revCollect ∧
    flexEnumerateWith dedupCollect "a[b]".toList ≠
      flexEnumerateWith revCollect "a[b]".toList := by
  refine ⟨fun l => List.Perm.refl l.dedup, fun l => (l.dedup).reverse_perm, ?_⟩
  intro h
  have h1 : flexEnumerateWith dedupCollect "a[b]".toList =
      .ok (.ok ["ab".toList, "a".toList]) := rfl
  have h2 : flexEnumerateWith revCollect "a[b]".toList =
      .ok (.ok ["a".toList, "ab".toList]) := rfl
  rw [h1, h2] at h
  simp at h

theorem flexEnumerateWith_eq (c : List (List Char) → List (List Char)) (s : List Char) :
    flexEnumerateWith c s =
      (if (pvalue (flexParse s)).length ≠ s.length
       then .ok (.error (.syntaxErr s (pvalue (flexParse s))))
       else
         match flexDecode (flexParse s) with
         | .error p => .error p
         | .ok root => .ok (.ok (c ((flatten root).map render)))) := rfl

/-- Claim C7 as amended: compilation is deterministic up to the iteration
order of the deduplicating set: under any two valid iteration orders, an
input fails in one invocation exactly when (and exactly how) it fails in the
other, and when both succeed the returned string lists are permutations of
each other (the same set of strings, in possibly different order). -/
theorem c7_amended (c1 c2 : List (List Char) → List (List Char))
    (h1 : ValidCollect c1) (h2 : ValidCollect c2) (s : List Char) :
    (∀ p : GoPanic, flexEnumerateWith c1 s = .error p ↔ flexEnumerateWith c2 s = .error p) ∧
    (∀ e : FlexError,
      flexEnumerateWith c1 s = .ok (.error e) ↔ flexEnumerateWith c2 s = .ok (.error e)) ∧
    (∀ o1 o2, flexEnumerateWith c1 s = .ok (.ok o1) → flexEnumerateWith c2 s = .ok (.ok o2) →
      List.Perm o1 o2) := by
  by_cases hlen : (pvalue (flexParse s)).length ≠ s.length
  · have e1 : flexEnumerateWith c1 s =
        .ok (.error (.syntaxErr s (pvalue (flexParse s)))) := by
      rw [flexEnumerateWith_eq c1, if_pos hlen]
    have e2 : flexEnumerateWith c2 s =
        .ok (.error (.syntaxErr s (pvalue (flexParse s)))) := by
      rw [flexEnumerateWith_eq c2, if_pos hlen]
    rw [e1, e2]
    exact ⟨fun p => Iff.rfl, fun e => Iff.rfl, fun o1 o2 h1' h2' => by simp at h1'⟩
  · cases hdec : flexDecode (flexParse s) with
    | error q =>
      have e1 : flexEnumerateWith c1 s = .error q := by
        rw [flexEnumerateWith_eq c1, if_neg hlen, hdec]
      have e2 : flexEnumerateWith c2 s = .error q := by
        rw [flexEnumerateWith_eq c2, if_neg hlen, hdec]
      rw [e1, e2]
      exact ⟨fun p => Iff.rfl, fun e => Iff.rfl, fun o1 o2 h1' h2' => by simp at h1'⟩
    | ok root =>
      have e1 : flexEnumerateWith c1 s = .ok (.ok (c1 ((flatten root).map render))) := by
        rw [flexEnumerateWith_eq c1, if_neg hlen, hdec]
      have e2 : flexEnumerateWith c2 s = .ok (.ok (c2 ((flatten root).map render))) := by
        rw [flexEnumerateWith_eq c2, if_neg hlen, hdec]
      rw [e1, e2]
      refine ⟨fun p => by simp, fun e => by simp, ?_⟩
      intro o1 o2 h1' h2'
      simp only [Except.ok.injEq] at h1' h2'
      subst h1'
      subst h2'
      exact (h1 ((flatten root).map render)).trans (h2 ((flatten root).map render)).symm

theorem c7_amended_witness :
    ValidCollect dedupCollect ∧ ValidCollect revCollect ∧
    ((∀ p : GoPanic, flexEnumerateWith dedupCollect "a[b]".toList = .error p ↔
        flexEnumerateWith revCollect "a[b]".toList = .error p) ∧
     (∀ e : FlexError, flexEnumerateWith dedupCollect "a[b]".toList = .ok (.error e) ↔
        flexEnumerateWith revCollect "a[b]".toList = .ok (.error e)) ∧
     (∀ o1 o2, flexEnumerateWith dedupCollect "a[b]".toList = .ok (.ok o1) →
        flexEnumerateWith revCollect "a[b]".toList = .ok (.ok o2) → List.Perm o1 o2)) :=
  ⟨fun l => List.Perm.refl l.dedup, fun l => (l.dedup).reverse_perm,
    c7_amended dedupCollect revCollect (fun l => List.Perm.refl l.dedup)
      (fun l => (l.dedup).reverse_perm) "a[b]".toList⟩

/-! ### Claim C2: inputs without optional groups -/

/-- State machine for a template made only of plain runs and backslash
escapes (no brackets, no quoted blocks); the flag records a pending
backslash. -/
def unitTextAux : Bool → List Char → Bool
  | false, [] => true
  | true, [] => false
  | false, c :: t => if c = '\\' then unitTextAux true t else isNormalChar c && unitTextAux false t
  | true, c :: t => (c ≠ '\n') && unitTextAux false t

/-- A template made only of plain runs and backslash escapes: no brackets,
no quoted blocks.  (Such an input has zero optional groups.) -/
def unitText (s : List Char) : Bool := unitTextAux false s

theorem unitText_cons_bs (c2 : Char) (t2 : List Char) :
    unitText ('\\' :: c2 :: t2) = ((c2 ≠ '\n') && unitText t2) := rfl

theorem unitText_cons_norm (c : Char) (t : List Char) (hc : ¬ (c = '\\')) :
    unitText (c :: t) = (isNormalChar c && unitText t) := by
  show unitTextAux false (c :: t) = _
  unfold unitTextAux
  rw [if_neg hc]
  rfl

theorem dropWhile_eq_drop_takeWhile (p : Char → Bool) (l : List Char) :
    l.drop (l.takeWhile p).length = l.dropWhile p := by
  induction l with
  | nil => rfl
  | cons c t ih =>
    by_cases hc : p c = true
    · rw [List.takeWhile_cons, List.dropWhile_cons]
      simp [hc, ih]
    · rw [List.takeWhile_cons, List.dropWhile_cons]
      simp [hc]

theorem unitText_dropWhile (s : List Char) (h : unitText s = true) :
    unitText (s.dropWhile isNormalChar) = true := by
  induction s with
  | nil => exact h
  | cons c t ih =>
    by_cases hc : isNormalChar c = true
    · have hbs : ¬ (c = '\\') := by
        intro he
        subst he
        simp [isNormalChar] at hc
      rw [List.dropWhile_cons, hc]
      simp only [if_true]
      apply ih
      rw [unitText_cons_norm c t hbs, Bool.and_eq_true] at h
      exact h.2
    · have hc' : isNormalChar c = false := by
        rwa [Bool.not_eq_true] at hc
      rw [List.dropWhile_cons, hc']
      simpa using h

/-- On a `unitText` input, the `Many(char)` loop consumes the whole input,
produces only `NORMALCHARS`/`ESCAPEDCHAR` terminals, and their values
concatenate back to the input. -/
theorem pCharsAux_unit :
    ∀ (fuel : Nat) (s : List Char), s.length ≤ fuel → unitText s = true →
      (pCharsAux fuel s).2 = [] ∧
      pvalueList (pCharsAux fuel s).1 = s ∧
      ((pCharsAux fuel s).1 = [] → s = []) ∧
      (∀ n ∈ (pCharsAux fuel s).1, pname n = "NORMALCHARS" ∨ pname n = "ESCAPEDCHAR") := by
  intro fuel
  induction fuel with
  | zero =>
    intro s hlen hu
    have hs : s = [] := List.eq_nil_of_length_eq_zero (Nat.le_zero.mp hlen)
    subst hs
    refine ⟨rfl, rfl, fun _ => rfl, ?_⟩
    intro n hn
    simp [pCharsAux] at hn
  | succ f ih =>
    intro s hlen hu
    cases s with
    | nil =>
      refine ⟨rfl, rfl, fun _ => rfl, ?_⟩
      intro n hn
      simp [pCharsAux, pChar, pEscapedchar, pNormalchars, List.takeWhile] at hn
    | cons a t =>
      by_cases ha : a = '\\'
      · subst ha
        cases t with
        | nil => exact absurd hu (by decide)
        | cons c t' =>
          rw [unitText_cons_bs, Bool.and_eq_true, decide_eq_true_eq] at hu
          have hchar : pChar ('\\' :: c :: t') = some (.term "ESCAPEDCHAR" ['\\', c], t') := by
            simp [pChar, pEscapedchar, hu.1]
          have hlen' : t'.length ≤ f := by
            simp only [List.length_cons] at hlen
            omega
          obtain ⟨h1, h2, h3, h4⟩ := ih t' hlen' hu.2
          have hstep : pCharsAux (f+1) ('\\' :: c :: t') =
              ((.term "ESCAPEDCHAR" ['\\', c]) :: (pCharsAux f t').1, (pCharsAux f t').2) := by
            simp [pCharsAux, hchar]
          rw [hstep]
          refine ⟨h1, ?_, fun hcontra => by simp at hcontra, ?_⟩
          · show pvalue (.term "ESCAPEDCHAR" ['\\', c]) ++ pvalueList (pCharsAux f t').1 =
              '\\' :: c :: t'
            rw [h2]
            rfl
          · intro n hn
            rcases List.mem_cons.mp hn with h | h
            · subst h
              right
              rfl
            · exact h4 n h
      · rw [unitText_cons_norm a t ha, Bool.and_eq_true] at hu
        have hesc : pEscapedchar (a :: t) = none := by
          unfold pEscapedchar
          split
          · rename_i heq
            injection heq with h1 _
            exact absurd h1 ha
          · rfl
        have hrun : (a :: t).takeWhile isNormalChar = a :: t.takeWhile isNormalChar := by
          rw [List.takeWhile_cons, hu.1]
          simp
        have hchar : pChar (a :: t) =
            some (.term "NORMALCHARS" ((a :: t).takeWhile isNormalChar),
              (a :: t).drop ((a :: t).takeWhile isNormalChar).length) := by
          simp only [pChar, hesc, pNormalchars, hrun]
          simp
        have hdd : (a :: t).drop ((a :: t).takeWhile isNormalChar).length =
            (a :: t).dropWhile isNormalChar :=
          dropWhile_eq_drop_takeWhile isNormalChar (a :: t)
        have hrest_unit : unitText ((a :: t).dropWhile isNormalChar) = true :=
          unitText_dropWhile _ (by rw [unitText_cons_norm a t ha, Bool.and_eq_true]; exact hu)
        have hsplit : (a :: t).takeWhile isNormalChar ++ (a :: t).dropWhile isNormalChar =
            a :: t := List.takeWhile_append_dropWhile isNormalChar (a :: t)
        have hrest_len : ((a :: t).dropWhile isNormalChar).length ≤ f := by
          have h1 : ((a :: t).takeWhile isNormalChar).length +
              ((a :: t).dropWhile isNormalChar).length = (a :: t).length := by
            rw [← List.length_append, hsplit]
          have h2 : 1 ≤ ((a :: t).takeWhile isNormalChar).length := by
            rw [hrun]
            simp
          simp only [List.length_cons] at h1 hlen
          omega
        obtain ⟨h1, h2, h3, h4⟩ := ih _ hrest_len hrest_unit
        have hstep : pCharsAux (f+1) (a :: t) =
            ((.term "NORMALCHARS" ((a :: t).takeWhile isNormalChar)) ::
              (pCharsAux f ((a :: t).dropWhile isNormalChar)).1,
             (pCharsAux f ((a :: t).dropWhile isNormalChar)).2) := by
          rw [show pCharsAux (f+1) (a :: t) =
            (match pChar (a :: t) with
             | none => ([], a :: t)
             | some (n, rest) =>
               let x := pCharsAux f rest
               (n :: x.1, x.2)) from rfl]
          rw [hchar, hdd]
        rw [hstep]
        refine ⟨h1, ?_, fun hcontra => by simp at hcontra, ?_⟩
        · show pvalue (.term "NORMALCHARS" ((a :: t).takeWhile isNormalChar)) ++
            pvalueList (pCharsAux f ((a :: t).dropWhile isNormalChar)).1 = a :: t
          rw [h2]
          show (a :: t).takeWhile isNormalChar ++ (a :: t).dropWhile isNormalChar = a :: t
          exact hsplit
        · intro n hn
          rcases List.mem_cons.mp hn with h | h
          · subst h
            left
            rfl
          · exact h4 n h

theorem pOptional_none_of_head (fuel : Nat) (s : List Char)
    (h : ∀ rest, s ≠ '[' :: rest) : pOptional fuel s = none := by
  cases fuel with
  | zero => rfl
  | succ f =>
    cases s with
    | nil => rfl
    | cons c t =>
      have hc : ¬ (c = '[') := by
        intro he
        subst he
        exact absurd rfl (h t)
      show (if c = '[' then _ else none) = none
      rw [if_neg hc]

theorem unit_head_not_lbrack (a : Char) (t : List Char) (hu : unitText (a :: t) = true) :
    ∀ rest, a :: t ≠ '[' :: rest := by
  intro rest heq
  injection heq with h1 h2
  subst h1
  rw [unitText_cons_norm '[' t (by decide), Bool.and_eq_true] at hu
  exact absurd hu.1 (by decide)

theorem flexTopAux_nil (fuel : Nat) : flexTopAux fuel [] = ([], []) := by
  cases fuel <;> rfl

theorem flexTopAux_unit (fuel : Nat) (s : List Char) (hu : unitText s = true) (hne : s ≠ []) :
    flexTopAux (fuel + 1) s = ([mkPNode "CHARS" (pCharsAux s.length s).1], []) := by
  obtain ⟨h1, h2, h3, h4⟩ := pCharsAux_unit s.length s le_rfl hu
  have hopt : pOptional (fuel + 1) s = none := by
    apply pOptional_none_of_head
    cases s with
    | nil => exact absurd rfl hne
    | cons a t => exact unit_head_not_lbrack a t hu
  have hchars : pChars s = some (mkPNode "CHARS" (pCharsAux s.length s).1, []) := by
    unfold pChars
    rcases hres : pCharsAux s.length s with ⟨ns, r⟩
    rw [hres] at h1 h3
    cases ns with
    | nil => exact absurd (h3 rfl) hne
    | cons n ns' =>
      have hr : r = [] := h1
      subst hr
      rfl
  rw [show flexTopAux (fuel + 1) s =
    (match
      (match pOptional (fuel + 1) s with
       | some x => some x
       | none => pChars s) with
     | none => ([], s)
     | some (n, rest) =>
       let x := flexTopAux fuel rest
       (n :: x.1, x.2)) from rfl]
  rw [hopt, hchars]
  simp only [flexTopAux_nil]

theorem addCharsValues_ok (cs : List PNode)
    (h : ∀ n ∈ cs, pname n = "NORMALCHARS" ∨ pname n = "ESCAPEDCHAR") :
    ∀ (vs : RawString),
      ∃ vs', addCharsValues cs (.mk vs false .nil .nil) = .ok (.mk (vs ++ vs') false .nil .nil) ∧
        render vs' = pvalueList cs := by
  induction cs with
  | nil =>
    intro vs
    exact ⟨[], by simp [addCharsValues], rfl⟩
  | cons n cs' ih =>
    intro vs
    rcases h n (List.mem_cons_self n cs') with hn | hn
    · have step : addCharsValues (n :: cs') (.mk vs false .nil .nil) =
          addCharsValues cs' (.mk (vs ++ [⟨.normal, pvalue n⟩]) false .nil .nil) := by
        rw [show addCharsValues (n :: cs') (.mk vs false .nil .nil) =
          (match pname n with
           | "NORMALCHARS" =>
             addCharsValues cs' (addValue (.mk vs false .nil .nil) (pvalue n) .normal)
           | "ESCAPEDCHAR" =>
             addCharsValues cs' (addValue (.mk vs false .nil .nil) (pvalue n) .singleQuoteEscaped)
           | _ => .error (.decodePanic (pname n) (pvalue n))) from rfl]
        rw [hn]
        rfl
      obtain ⟨vs', hv1, hv2⟩ := ih (fun m hm => h m (List.mem_cons_of_mem _ hm))
        (vs ++ [⟨.normal, pvalue n⟩])
      refine ⟨⟨.normal, pvalue n⟩ :: vs', ?_, ?_⟩
      · rw [step, hv1]
        simp
      · show pvalue n ++ render vs' = pvalueList (n :: cs')
        rw [hv2]
        rfl
    · have step : addCharsValues (n :: cs') (.mk vs false .nil .nil) =
          addCharsValues cs' (.mk (vs ++ [⟨.singleQuoteEscaped, pvalue n⟩]) false .nil .nil) := by
        rw [show addCharsValues (n :: cs') (.mk vs false .nil .nil) =
          (match pname n with
           | "NORMALCHARS" =>
             addCharsValues cs' (addValue (.mk vs false .nil .nil) (pvalue n) .normal)
           | "ESCAPEDCHAR" =>
             addCharsValues cs' (addValue (.mk vs false .nil .nil) (pvalue n) .singleQuoteEscaped)
           | _ => .error (.decodePanic (pname n) (pvalue n))) from rfl]
        rw [hn]
        rfl
      obtain ⟨vs', hv1, hv2⟩ := ih (fun m hm => h m (List.mem_cons_of_mem _ hm))
        (vs ++ [⟨.singleQuoteEscaped, pvalue n⟩])
      refine ⟨⟨.singleQuoteEscaped, pvalue n⟩ :: vs', ?_, ?_⟩
      · rw [step, hv1]
        simp
      · show pvalue n ++ render vs' = pvalueList (n :: cs')
        rw [hv2]
        rfl

theorem flexDecode_chars (ns : List PNode)
    (hns : ∀ n ∈ ns, pname n = "NORMALCHARS" ∨ pname n = "ESCAPEDCHAR") :
    ∃ vs, flexDecode (mkPNode "OPTIONALSTRING" [mkPNode "CHARS" ns]) =
        .ok (.mk vs false .nil .nil) ∧ render vs = pvalueList ns := by
  obtain ⟨vs', hv1, hv2⟩ := addCharsValues_ok ns hns []
  refine ⟨vs', ?_, hv2⟩
  unfold flexDecode
  obtain ⟨g, hg⟩ : ∃ g, 4 * (pvalue (mkPNode "OPTIONALSTRING" [mkPNode "CHARS" ns])).length + 4
      = g + 1 :=
    ⟨4 * (pvalue (mkPNode "OPTIONALSTRING" [mkPNode "CHARS" ns])).length + 3, by omega⟩
  rw [hg]
  show flexDecodeLoopWith (flexRecursiveDecode g) (pchildren (mkPNode "OPTIONALSTRING"
    [mkPNode "CHARS" ns])) (pchildren (mkPNode "OPTIONALSTRING" [mkPNode "CHARS" ns]))
    false newTreeNode = .ok (.mk vs' false .nil .nil)
  show (match addCharsValues ns (TreeNode.mk [] false TreeNode.nil TreeNode.nil) with
        | Except.error p => Except.error p
        | Except.ok ctx' => flexDecodeLoopWith (flexRecursiveDecode g)
            [mkPNode "CHARS" ns] [] false ctx') =
      Except.ok (TreeNode.mk vs' false TreeNode.nil TreeNode.nil)
  rw [hv1]
  simp only [List.nil_append]
  rfl

/-- Claim C2, counterexample: two inputs with zero optional groups violate
the claim against `EnumerateOptionalString` (flextime).  The quoted-block
template `'ab'` does not succeed at all — the flextime top level only
iterates `optional | chars`, so a top-level quoted block parses as nothing
and the length check reports a `SyntaxError`.  And for the template `\Y`
Expand does return exactly one sequence, but its rendering is `\Y`, the
input verbatim: escape markers are not stripped by `rawString.String`. -/
theorem c2_counterexample :
    flexEnumerate "'ab'".toList = .ok (.error (.syntaxErr "'ab'".toList [])) ∧
    flexEnumerate "\\Y".toList = .ok (.ok ["\\Y".toList]) ∧
    "\\Y".toList ≠ "Y".toList :=
  ⟨rfl, rfl, by decide⟩

/-- Claim C2 as amended: for every non-empty input made only of plain runs
and backslash escapes (no optional groups, and also no quoted blocks — the
flextime grammar rejects those at top level), `EnumerateOptionalString`
succeeds under any set-iteration order and returns exactly one sequence,
whose rendering equals the input verbatim — escape markers are preserved,
not stripped (`\Y` renders as `\Y`). -/
theorem c2_amended (collect : List (List Char) → List (List Char))
    (hcol : ValidCollect collect) (s : List Char)
    (hu : unitText s = true) (hne : s ≠ []) :
    flexEnumerateWith collect s = .ok (.ok [s]) := by
  obtain ⟨h1, h2, h3, h4⟩ := pCharsAux_unit s.length s le_rfl hu
  have hparse : flexParse s =
      mkPNode "OPTIONALSTRING" [mkPNode "CHARS" (pCharsAux s.length s).1] := by
    unfold flexParse
    rw [flexTopAux_unit s.length s hu hne]
  have hval : pvalue (flexParse s) = s := by
    rw [hparse]
    show pvalueList [mkPNode "CHARS" (pCharsAux s.length s).1] = s
    show pvalueList (pCharsAux s.length s).1 ++ [] = s
    rw [List.append_nil]
    exact h2
  have hlen : ¬ ((pvalue (flexParse s)).length ≠ s.length) := by
    rw [hval]
    simp
  obtain ⟨vs, hdec, hrender⟩ := flexDecode_chars (pCharsAux s.length s).1 h4
  have hrs : render vs = s := by rw [hrender]; exact h2
  have hvs : vs ≠ [] := by
    intro hcontra
    subst hcontra
    exact hne (by rw [← hrs]; rfl)
  have hflat : flatten (.mk vs false .nil .nil) = [vs] := by
    show (if vs.length > 0 then [vs] else []) = [vs]
    rw [if_pos (List.length_pos.mpr hvs)]
  rw [flexEnumerateWith_eq collect s, if_neg hlen, hparse, hdec]
  show Except.ok (Except.ok (collect (List.map render
    (flatten (TreeNode.mk vs false TreeNode.nil TreeNode.nil))))) = Except.ok (Except.ok [s])
  rw [hflat]
  show Except.ok (Except.ok (collect [render vs])) = Except.ok (Except.ok [s])
  rw [hrs]
  have hperm : List.Perm (collect [s]) ([s].dedup) := hcol [s]
  have hd : ([s] : List (List Char)).dedup = [s] := by simp
  rw [hd] at hperm
  rw [List.perm_singleton.mp hperm]

theorem c2_amended_witness :
    ValidCollect dedupCollect ∧ unitText "\\Y".toList = true ∧ "\\Y".toList ≠ [] ∧
    flexEnumerateWith dedupCollect "\\Y".toList = .ok (.ok ["\\Y".toList]) :=
  ⟨fun l => List.Perm.refl l.dedup, by decide, by decide,
    c2_amended dedupCollect (fun l => List.Perm.refl l.dedup) "\\Y".toList
      (by decide) (by decide)⟩
